import Mathlib

/-!
# Verification of the redis-backed item pool (`src/pooler/pool.py`)

The program stores a pool of items as a single redis ZSET: each member is an
item's canonical (string) form and its score is the unix timestamp at which
the item next becomes available.  We model the ZSET as an association list
from member strings to integer scores (redis stores a member at most once;
the `Nodup` hypotheses below express that invariant where a proof needs it).
Timestamps and scores are modelled as integers: none of the properties below
depends on fractional seconds, and integer arithmetic is exact where float
arithmetic would only complicate the statements.

Each Lean definition below embeds the correspondingly named Python function
or registered Lua script.  Redis commands (`zscore`, `zadd`, `zrem`,
`zrangebyscore ... limit 0 1`, `zinterstore`, `zunionstore`, `rename`) are
embedded first; `zrangebyscore` orders members by score with ties broken
lexicographically on the member string, which we model by minimising the
pair (score, member) in lexicographic order.
-/

namespace Pooler

/-- Canonical storable form of an item: a redis ZSET member (a string). -/
abbrev Item := String

/-- A redis ZSET: members paired with their scores.  A well-formed ZSET has
no duplicate members. -/
abbrev ZSet := List (Item × ℤ)

/-- The members of a ZSET, in storage order. -/
def members (z : ZSet) : List Item :=
  z.map Prod.fst

/-- Redis ZSCORE: the score of member `m`, or `none` when `m` is absent. -/
def zscore : ZSet → Item → Option ℤ
  | [], _ => none
  | p :: rest, m => if p.1 = m then some p.2 else zscore rest m

/-- Redis ZADD with one (score, member) pair: update the member's score in
place when it is already present, otherwise insert it. -/
def zadd : ZSet → ℤ → Item → ZSet
  | [], score, m => [(m, score)]
  | p :: rest, score, m =>
      if p.1 = m then (m, score) :: rest else p :: zadd rest score m

/-- Redis ZREM of a single member: the number of members removed (0 or 1)
and the remaining ZSET. -/
def zrem (z : ZSet) (m : Item) : Nat × ZSet :=
  ((if (zscore z m).isSome then 1 else 0), z.filter (fun p => decide (p.1 ≠ m)))

/-- The sort key redis uses for a ZSET entry: score first, member string as
the lexicographic tie-break. -/
def entryKey (p : Item × ℤ) : ℤ ×ₗ Item :=
  toLex (p.2, p.1)

/-- The entries whose score is at most `maxScore` (the `-inf .. max` range of
the `zrangebyscore` call, whose lower bound is `-inf` in `choose`). -/
def eligList (maxScore : ℤ) (z : ZSet) : ZSet :=
  z.filter (fun p => decide (p.2 ≤ maxScore))

/-- Redis `ZRANGEBYSCORE key -inf max LIMIT 0 1`: the member with the least
score among those with score ≤ max, ties broken lexicographically on the
member; `none` when no member is in range. -/
def zrangebyscoreMin (z : ZSet) (maxScore : ℤ) : Option Item :=
  ((eligList maxScore z).argmin entryKey).map Prod.fst

/-- Redis ZINTERSTORE over two ZSETs with default weights and SUM
aggregation: members present in both, scores added. -/
def zinterstore : ZSet → ZSet → ZSet
  | [], _ => []
  | p :: rest, b =>
      match zscore b p.1 with
      | some s => (p.1, p.2 + s) :: zinterstore rest b
      | none => zinterstore rest b

/-- The entries of `a` with the score of any member also in `b` added in
(the first operand's contribution to a SUM-aggregated union). -/
def zunionAux : ZSet → ZSet → ZSet
  | [], _ => []
  | p :: rest, b =>
      (match zscore b p.1 with
       | some s => (p.1, p.2 + s)
       | none => p) :: zunionAux rest b

/-- Redis ZUNIONSTORE over two ZSETs with default weights and SUM
aggregation: members present in either, scores added where both. -/
def zunionstore (a b : ZSet) : ZSet :=
  zunionAux a b ++ b.filter (fun p => (zscore a p.1).isNone)

/-- `Pool.serialize`: the body is the identity on its argument (a
placeholder encoding). -/
def serialize (item : Item) : Item :=
  item

/-- `Pool.deserialize`: the body is the identity on its argument. -/
def deserialize (element : Item) : Item :=
  element

/-- The error raised by `choose` when no member's score is within range. -/
inductive PoolError where
  | noItemAvailable : String → PoolError
deriving DecidableEq, Repr

instance {ε α : Type} [DecidableEq ε] [DecidableEq α] : DecidableEq (Except ε α) :=
  fun x y =>
    match x, y with
    | Except.ok a, Except.ok b =>
        if h : a = b then Decidable.isTrue (by rw [h])
        else Decidable.isFalse (by intro hc; exact h (Except.ok.inj hc))
    | Except.error a, Except.error b =>
        if h : a = b then Decidable.isTrue (by rw [h])
        else Decidable.isFalse (by intro hc; exact h (Except.error.inj hc))
    | Except.ok _, Except.error _ => Decidable.isFalse (by intro hc; exact Except.noConfusion hc)
    | Except.error _, Except.ok _ => Decidable.isFalse (by intro hc; exact Except.noConfusion hc)

/-- The Lua script registered as `zadd_if_new_script`.  In redis Lua,
`ZSCORE` on a missing member yields the Lua value `false`, not `nil`, so the
script's `current_score == nil` test never succeeds and control always
reaches the `zadd` branch, which upserts the member at the given score and
returns the number of members newly added (1 when new, 0 when the member
already existed and only its score was rewritten). -/
def zadd_if_new_script (z : ZSet) (score : ℤ) (element : Item) : Int × ZSet :=
  ((if (zscore z element).isSome then 0 else 1), zadd z score element)

/-- The Lua script registered as `zset_element_choose_and_alter_script`:
take the first member of `zrangebyscore key -inf max limit 0 1`; when one
exists, rewrite its score to `newScore` and return it, otherwise return nil
leaving the ZSET untouched. -/
def zset_element_choose_and_alter_script (z : ZSet) (maxScore newScore : ℤ) :
    Option Item × ZSet :=
  match zrangebyscoreMin z maxScore with
  | none => (none, z)
  | some element => (some element, zadd z newScore element)

/-- `Pool.choose` at current time `now` with the pool's `lock_timeout`:
run the choose-and-alter script with `max = now` and
`new_score = now + lock_timeout`; raise `NoItemAvailableError` when the
script returns nil, otherwise return the deserialized element and the
updated pool. -/
def choose (lock_timeout now : ℤ) (z : ZSet) : Except PoolError (Item × ZSet) :=
  let lock_till := now + lock_timeout
  match zset_element_choose_and_alter_script z now lock_till with
  | (none, _) => Except.error (PoolError.noItemAvailable "Pool has no available items.")
  | (some element, z') => Except.ok (deserialize element, z')

/-- `_just_before_now`: `time.time() - 1`. -/
def _just_before_now (now : ℤ) : ℤ :=
  now - 1

/-- `Pool.replace`: upsert the serialized item at score `_just_before_now()`
when no `lock_till` is given, else at `lock_till`. -/
def replace (now : ℤ) (z : ZSet) (item : Item) (lock_till : Option ℤ) : ZSet :=
  let new_score := match lock_till with
    | none => _just_before_now now
    | some t => t
  zadd z new_score (serialize item)

/-- `Pool.add`: run `zadd_if_new_script` with score 0 on the serialized item
and return the truthiness of the script's result together with the updated
pool. -/
def add (z : ZSet) (item : Item) : Bool × ZSet :=
  let default_score : ℤ := 0
  let element := serialize item
  let r := zadd_if_new_script z default_score element
  (decide (r.1 ≠ 0), r.2)

/-- `Pool.remove`: ZREM the serialized item; `True` exactly when a member
was removed. -/
def remove (z : ZSet) (item : Item) : Bool × ZSet :=
  let element := serialize item
  let r := zrem z element
  (decide (r.1 ≠ 0), r.2)

/-- The temporary pool built by `Pool.reset`'s batched `add_batch` calls:
every serialized item upserted at score 0.  The batch boundaries (500 items
per ZADD command) do not affect the resulting ZSET, so the fold is over the
whole item list. -/
def buildTemp (items : List Item) : ZSet :=
  (items.map serialize).foldl (fun t e => zadd t 0 e) []

/-- `Pool.reset`: build the new membership under a temporary key, count
every input item (`item_count` is incremented once per item of the input,
duplicates included); when `preserve_scores` is set and the pool key exists
(a redis key holding a ZSET exists exactly when the ZSET is non-empty),
ZINTERSTORE the temporary ZSET with the old pool and ZUNIONSTORE the result
back over the temporary ZSET; finally RENAME the temporary key onto the pool
key.  RENAME of a key that was never created (no item was ever added to the
temporary ZSET) fails with redis error "no such key", leaving the old pool
in place; this is modelled by the `Except.error` branch. -/
def reset (z : ZSet) (items : List Item) (preserve_scores : Bool) :
    Except String (Nat × ZSet) :=
  let temp := buildTemp items
  let item_count := items.length
  let temp2 := if preserve_scores ∧ z ≠ [] then
      zunionstore (zinterstore temp z) temp
    else temp
  if temp2 = [] then Except.error "no such key"
  else Except.ok (item_count, temp2)

/-- `n` successive `choose` calls, all at time `now`: the items returned by
the successful calls in order, and the final pool state.  The Lua script
runs atomically inside redis, so any interleaving of `n` concurrent
`choose` calls is serialized into exactly such a sequence. -/
def chooseSeq (lock_timeout now : ℤ) : ZSet → Nat → List Item × ZSet
  | z, 0 => ([], z)
  | z, n + 1 =>
      match choose lock_timeout now z with
      | Except.ok (e, z') =>
          let r := chooseSeq lock_timeout now z' n
          (e :: r.1, r.2)
      | Except.error _ => ([], z)

/-! ## Association-list facts about the ZSET model -/

theorem zscore_eq_none_iff {z : ZSet} {m : Item} :
    zscore z m = none ↔ m ∉ members z := by
  induction z with
  | nil => simp [zscore, members]
  | cons p rest ih =>
      by_cases h : p.1 = m
      · simp [zscore, h, members]
      · simp [zscore, h, members, ih, eq_comm (a := m) (b := p.1)]

theorem zscore_isSome_iff {z : ZSet} {m : Item} :
    (zscore z m).isSome ↔ m ∈ members z := by
  rw [Option.isSome_iff_ne_none, Ne, zscore_eq_none_iff, not_not]

theorem zscore_zadd_self (z : ZSet) (s : ℤ) (m : Item) :
    zscore (zadd z s m) m = some s := by
  induction z with
  | nil => simp [zadd, zscore]
  | cons p rest ih =>
      by_cases h : p.1 = m
      · simp [zadd, h, zscore]
      · simp [zadd, h, zscore, ih]

theorem zscore_zadd_ne (z : ZSet) (s : ℤ) {m m' : Item} (hne : m' ≠ m) :
    zscore (zadd z s m) m' = zscore z m' := by
  induction z with
  | nil => simp [zadd, zscore, Ne.symm hne]
  | cons p rest ih =>
      by_cases h : p.1 = m
      · simp [zadd, h, zscore, Ne.symm hne]
      · simp [zadd, h, zscore, ih]

theorem members_cons (p : Item × ℤ) (z : ZSet) :
    members (p :: z) = p.1 :: members z := rfl

theorem members_zadd_of_mem {z : ZSet} {m : Item} (h : m ∈ members z) (s : ℤ) :
    members (zadd z s m) = members z := by
  induction z with
  | nil => simp [members] at h
  | cons p rest ih =>
      by_cases hp : p.1 = m
      · simp [zadd, hp, members_cons]
      · have hrest : m ∈ members rest := by
          rcases List.mem_cons.mp (by rw [members_cons] at h; exact h) with h1 | h2
          · exact absurd h1.symm hp
          · exact h2
        simp only [zadd, if_neg hp, members_cons, ih hrest]

theorem members_zadd_of_not_mem {z : ZSet} {m : Item} (h : m ∉ members z) (s : ℤ) :
    members (zadd z s m) = members z ++ [m] := by
  induction z with
  | nil => simp [zadd, members]
  | cons p rest ih =>
      have hp : p.1 ≠ m := fun he => h (by rw [members_cons, he]; exact List.mem_cons_self _ _)
      have hrest : m ∉ members rest :=
        fun hm => h (by rw [members_cons]; exact List.mem_cons_of_mem _ hm)
      simp only [zadd, if_neg hp, members_cons, ih hrest, List.cons_append]

theorem mem_eligList {mx : ℤ} {z : ZSet} {p : Item × ℤ} :
    p ∈ eligList mx z ↔ p ∈ z ∧ p.2 ≤ mx := by
  simp [eligList, List.mem_filter]

theorem eligList_eq_nil_iff {mx : ℤ} {z : ZSet} :
    eligList mx z = [] ↔ ∀ p ∈ z, ¬ p.2 ≤ mx := by
  simp [eligList, List.filter_eq_nil_iff]

theorem zrangebyscoreMin_eq_none_iff {z : ZSet} {mx : ℤ} :
    zrangebyscoreMin z mx = none ↔ ∀ p ∈ z, ¬ p.2 ≤ mx := by
  rw [zrangebyscoreMin, Option.map_eq_none', List.argmin_eq_none, eligList_eq_nil_iff]

theorem zrangebyscoreMin_eq_some {z : ZSet} {mx : ℤ} {e : Item}
    (h : zrangebyscoreMin z mx = some e) :
    ∃ s, (e, s) ∈ z ∧ s ≤ mx ∧
      ∀ p ∈ z, p.2 ≤ mx → s < p.2 ∨ (s = p.2 ∧ e ≤ p.1) := by
  rw [zrangebyscoreMin] at h
  rcases Option.map_eq_some'.mp h with ⟨q, hq, he⟩
  have hqmem : q ∈ eligList mx z := List.argmin_mem (Option.mem_def.mpr hq)
  rcases mem_eligList.mp hqmem with ⟨hqz, hqle⟩
  refine ⟨q.2, ?_, hqle, ?_⟩
  · rw [← he]; exact hqz
  · intro p hpz hple
    have hple' : entryKey q ≤ entryKey p :=
      List.le_of_mem_argmin (mem_eligList.mpr ⟨hpz, hple⟩) (Option.mem_def.mpr hq)
    have := (Prod.Lex.le_iff (q.2, q.1) (p.2, p.1)).mp hple'
    simpa [he] using this

theorem choose_eq_ok_iff {d now : ℤ} {z : ZSet} {e : Item} {z' : ZSet} :
    choose d now z = Except.ok (e, z') ↔
      zrangebyscoreMin z now = some e ∧ z' = zadd z (now + d) e := by
  rcases hmin : zrangebyscoreMin z now with _ | e₀
  · simp [choose, zset_element_choose_and_alter_script, hmin]
  · simp only [choose, zset_element_choose_and_alter_script, hmin, deserialize,
      Except.ok.injEq, Prod.mk.injEq, Option.some.injEq]
    constructor
    · rintro ⟨rfl, rfl⟩; exact ⟨rfl, rfl⟩
    · rintro ⟨rfl, rfl⟩; exact ⟨rfl, rfl⟩

theorem choose_eq_error_iff {d now : ℤ} {z : ZSet} :
    (∃ err, choose d now z = Except.error err) ↔ zrangebyscoreMin z now = none := by
  rcases hmin : zrangebyscoreMin z now with _ | e₀ <;>
    simp [choose, zset_element_choose_and_alter_script, hmin]

/-! ## Facts about repeated `choose` calls -/

theorem members_eligList_subset {mx : ℤ} {z : ZSet} {m : Item}
    (h : m ∈ members (eligList mx z)) : m ∈ members z := by
  rw [members] at h
  rcases List.mem_map.mp h with ⟨p, hp, rfl⟩
  exact List.mem_map_of_mem _ (mem_eligList.mp hp).1

theorem eligList_zadd_of_mem {now s : ℤ} {z : ZSet} (hnd : (members z).Nodup)
    {p : Item × ℤ} (hp : p ∈ eligList now z) (hs : ¬ s ≤ now) :
    (eligList now (zadd z s p.1)).length + 1 = (eligList now z).length ∧
    p.1 ∉ members (eligList now (zadd z s p.1)) ∧
    (∀ m, m ∈ members (eligList now (zadd z s p.1)) → m ∈ members (eligList now z)) := by
  induction z with
  | nil => simp [eligList] at hp
  | cons q rest ih =>
      have hc := List.nodup_cons.mp (by rwa [members_cons] at hnd)
      rcases mem_eligList.mp hp with ⟨hpz, hple⟩
      by_cases hq : q.1 = p.1
      · have hpq : p = q := by
          rcases List.mem_cons.mp hpz with h1 | h2
          · exact h1
          · exact absurd (List.mem_map_of_mem Prod.fst h2) (hq ▸ hc.1)
        obtain rfl : p = q := hpq
        have hzadd : zadd (p :: rest) s p.1 = (p.1, s) :: rest := by
          simp [zadd]
        have h1 : eligList now ((p.1, s) :: rest) = eligList now rest := by
          simp [eligList, List.filter_cons, hs]
        have h2 : eligList now (p :: rest) = p :: eligList now rest := by
          simp [eligList, List.filter_cons, hple]
        rw [hzadd, h1, h2]
        refine ⟨by simp, ?_, ?_⟩
        · intro hmem
          exact hc.1 (members_eligList_subset hmem)
        · intro m hm
          rw [members_cons]
          exact List.mem_cons_of_mem _ hm
      · have hprest : p ∈ eligList now rest :=
          mem_eligList.mpr
            ⟨(List.mem_cons.mp hpz).resolve_left
              (fun h => hq ((congrArg Prod.fst h).symm)), hple⟩
        have ihres := ih hc.2 hprest
        have hzadd : zadd (q :: rest) s p.1 = q :: zadd rest s p.1 := by
          simp [zadd, hq]
        rw [hzadd]
        by_cases hqe : q.2 ≤ now
        · have e1 : eligList now (q :: zadd rest s p.1) =
              q :: eligList now (zadd rest s p.1) := by
            simp [eligList, List.filter_cons, hqe]
          have e2 : eligList now (q :: rest) = q :: eligList now rest := by
            simp [eligList, List.filter_cons, hqe]
          rw [e1, e2]
          refine ⟨?_, ?_, ?_⟩
          · have h1 := ihres.1
            simp only [List.length_cons]
            omega
          · rw [members_cons]
            intro hmem
            rcases List.mem_cons.mp hmem with h1 | h2
            · exact hq h1.symm
            · exact ihres.2.1 h2
          · intro m hm
            rw [members_cons] at hm
            rw [members_cons]
            rcases List.mem_cons.mp hm with h1 | h2
            · exact List.mem_cons.mpr (Or.inl h1)
            · exact List.mem_cons_of_mem _ (ihres.2.2 m h2)
        · have e1 : eligList now (q :: zadd rest s p.1) =
              eligList now (zadd rest s p.1) := by
            simp [eligList, List.filter_cons, hqe]
          have e2 : eligList now (q :: rest) = eligList now rest := by
            simp [eligList, List.filter_cons, hqe]
          rw [e1, e2]
          exact ihres

theorem chooseSeq_mutual_exclusion (d now : ℤ) (hd : 0 < d) :
    ∀ n (z : ZSet), (members z).Nodup → (eligList now z).length = n →
      (chooseSeq d now z n).1.Nodup ∧
      (chooseSeq d now z n).1.length = n ∧
      (∀ m ∈ (chooseSeq d now z n).1, m ∈ members (eligList now z)) ∧
      eligList now (chooseSeq d now z n).2 = [] := by
  intro n
  induction n with
  | zero =>
      intro z hnd hlen
      have hnil : eligList now z = [] := List.length_eq_zero.mp hlen
      simp [chooseSeq, hnil]
  | succ k ih =>
      intro z hnd hlen
      have hnonnil : eligList now z ≠ [] := by
        intro h; rw [h] at hlen; simp at hlen
      obtain ⟨e, he⟩ : ∃ e, zrangebyscoreMin z now = some e := by
        rcases h : zrangebyscoreMin z now with _ | e
        · rw [zrangebyscoreMin_eq_none_iff] at h
          exact absurd (eligList_eq_nil_iff.mpr h) hnonnil
        · exact ⟨e, rfl⟩
      have hok : choose d now z = Except.ok (e, zadd z (now + d) e) :=
        choose_eq_ok_iff.mpr ⟨he, rfl⟩
      rcases zrangebyscoreMin_eq_some he with ⟨s, hmem, hle, -⟩
      have hpelig : (e, s) ∈ eligList now z := mem_eligList.mpr ⟨hmem, hle⟩
      have hnotle : ¬ now + d ≤ now := by omega
      have herase := eligList_zadd_of_mem hnd hpelig hnotle
      have hmembers : members (zadd z (now + d) e) = members z :=
        members_zadd_of_mem (List.mem_map_of_mem Prod.fst hmem) _
      have hnd' : (members (zadd z (now + d) e)).Nodup := by
        rw [hmembers]; exact hnd
      have hlen' : (eligList now (zadd z (now + d) e)).length = k := by
        have h1 : (eligList now (zadd z (now + d) e)).length + 1 =
            (eligList now z).length := herase.1
        omega
      have ihres := ih (zadd z (now + d) e) hnd' hlen'
      have hunfold : chooseSeq d now z (k + 1) =
          (e :: (chooseSeq d now (zadd z (now + d) e) k).1,
            (chooseSeq d now (zadd z (now + d) e) k).2) := by
        simp [chooseSeq, hok]
      rw [hunfold]
      refine ⟨?_, ?_, ?_, ihres.2.2.2⟩
      · refine List.nodup_cons.mpr ⟨?_, ihres.1⟩
        intro hmem'
        exact herase.2.1 (ihres.2.2.1 e hmem')
      · simp [ihres.2.1]
      · intro m hm
        rcases List.mem_cons.mp hm with h1 | h2
        · subst h1
          exact List.mem_map_of_mem Prod.fst hpelig
        · exact herase.2.2 m (ihres.2.2.1 m h2)

/-! ## Facts about the structures built by `reset` -/

theorem zscore_foldl_zadd (l : List Item) (acc : ZSet) (m : Item) :
    zscore (l.foldl (fun t e => zadd t 0 e) acc) m =
      if m ∈ l then some 0 else zscore acc m := by
  induction l generalizing acc with
  | nil => simp
  | cons a rest ih =>
      rw [List.foldl_cons, ih]
      by_cases hm : m ∈ rest
      · simp [hm]
      · by_cases ha : m = a
        · simp [hm, ha, zscore_zadd_self]
        · simp [hm, ha, zscore_zadd_ne acc 0 ha]

theorem zscore_buildTemp (items : List Item) (m : Item) :
    zscore (buildTemp items) m = if m ∈ items then some 0 else none := by
  have hmap : items.map serialize = items := by
    rw [show serialize = id from rfl, List.map_id]
  rw [buildTemp, hmap, zscore_foldl_zadd]
  rfl

theorem nodup_members_foldl_zadd (l : List Item) (acc : ZSet)
    (h : (members acc).Nodup) :
    (members (l.foldl (fun t e => zadd t 0 e) acc)).Nodup := by
  induction l generalizing acc with
  | nil => simpa using h
  | cons a rest ih =>
      rw [List.foldl_cons]
      apply ih
      by_cases hm : a ∈ members acc
      · rwa [members_zadd_of_mem hm]
      · rw [members_zadd_of_not_mem hm]
        exact List.Nodup.append h (List.nodup_singleton a)
          (by simpa [List.disjoint_singleton] using hm)

theorem nodup_members_buildTemp (items : List Item) :
    (members (buildTemp items)).Nodup := by
  have hmap : items.map serialize = items := by
    rw [show serialize = id from rfl, List.map_id]
  rw [buildTemp, hmap]
  exact nodup_members_foldl_zadd items [] (by simp [members])

theorem members_zinterstore_subset {a b : ZSet} {m : Item}
    (h : m ∈ members (zinterstore a b)) : m ∈ members a := by
  induction a with
  | nil => simp [zinterstore, members] at h
  | cons p rest ih =>
      rw [members_cons]
      rcases hb : zscore b p.1 with _ | s
      · have h' : m ∈ members (zinterstore rest b) := by
          simpa [zinterstore, hb] using h
        exact List.mem_cons_of_mem _ (ih h')
      · have h' : m ∈ members ((p.1, p.2 + s) :: zinterstore rest b) := by
          simpa [zinterstore, hb] using h
        rw [members_cons] at h'
        rcases List.mem_cons.mp h' with h1 | h2
        · exact List.mem_cons.mpr (Or.inl h1)
        · exact List.mem_cons_of_mem _ (ih h2)

theorem zscore_zinterstore (a b : ZSet) (m : Item) (hnd : (members a).Nodup) :
    zscore (zinterstore a b) m =
      match zscore a m, zscore b m with
      | some x, some y => some (x + y)
      | _, _ => none := by
  induction a with
  | nil => simp [zinterstore, zscore]
  | cons p rest ih =>
      have hc := List.nodup_cons.mp (by rwa [members_cons] at hnd)
      by_cases hp : p.1 = m
      · subst hp
        rcases hb : zscore b p.1 with _ | s
        · have hnone : zscore (zinterstore rest b) p.1 = none :=
            zscore_eq_none_iff.mpr (fun hmem => hc.1 (members_zinterstore_subset hmem))
          simp [zinterstore, hb, zscore, hnone]
        · simp [zinterstore, hb, zscore]
      · have hstep : zscore (zinterstore (p :: rest) b) m = zscore (zinterstore rest b) m := by
          rcases hb : zscore b p.1 with _ | s
          · simp [zinterstore, hb]
          · simp [zinterstore, hb, zscore, hp]
        rw [hstep, ih hc.2]
        simp [zscore, hp]

theorem zscore_zunionAux (a b : ZSet) (m : Item) :
    zscore (zunionAux a b) m =
      match zscore a m, zscore b m with
      | some x, some y => some (x + y)
      | some x, none => some x
      | none, _ => none := by
  induction a with
  | nil => simp [zunionAux, zscore]
  | cons p rest ih =>
      by_cases hp : p.1 = m
      · subst hp
        rcases hb : zscore b p.1 with _ | s <;> simp [zunionAux, hb, zscore]
      · have hstep : zscore (zunionAux (p :: rest) b) m = zscore (zunionAux rest b) m := by
          rcases hb : zscore b p.1 with _ | s <;> simp [zunionAux, hb, zscore, hp]
        rw [hstep, ih]
        simp [zscore, hp]

theorem zscore_append (l₁ l₂ : ZSet) (m : Item) :
    zscore (l₁ ++ l₂) m =
      match zscore l₁ m with
      | some s => some s
      | none => zscore l₂ m := by
  induction l₁ with
  | nil => simp [zscore]
  | cons p rest ih =>
      by_cases hp : p.1 = m <;> simp [zscore, hp, ih]

theorem zscore_filter_isNone (a b : ZSet) (m : Item) :
    zscore (b.filter (fun p => (zscore a p.1).isNone)) m =
      if (zscore a m).isNone = true then zscore b m else none := by
  induction b with
  | nil => simp [zscore]
  | cons p rest ih =>
      by_cases hp : p.1 = m
      · subst hp
        by_cases ha : (zscore a p.1).isNone = true <;>
          simp [List.filter_cons, ha, zscore, ih]
      · by_cases ha : (zscore a p.1).isNone = true <;>
          simp [List.filter_cons, ha, zscore, hp, ih]

theorem zscore_zunionstore (a b : ZSet) (m : Item) :
    zscore (zunionstore a b) m =
      match zscore a m, zscore b m with
      | some x, some y => some (x + y)
      | some x, none => some x
      | none, some y => some y
      | none, none => none := by
  rw [zunionstore, zscore_append, zscore_zunionAux]
  rcases ha : zscore a m with _ | x <;> rcases hb : zscore b m with _ | y <;>
    simp [zscore_filter_isNone, ha, hb]

/-! ## Claim theorems -/

/-- C1: `choose()` returns the member with the smallest `available_at` among
those with `available_at ≤ now` (ties broken by the lexicographic range-scan
order on the canonical form), sets that member's `available_at` to
`now + lock_timeout` and leaves every other score unchanged; it fails with
`NoItemAvailableError` exactly when no member has `available_at ≤ now`
(including the empty pool), and in that case the script leaves the ZSET
unchanged. -/
theorem choose_selects_min_available (d now : ℤ) (z : ZSet) :
    (∀ e z', choose d now z = Except.ok (e, z') →
      ∃ s, (e, s) ∈ z ∧ s ≤ now ∧
        (∀ p ∈ z, p.2 ≤ now → s < p.2 ∨ (s = p.2 ∧ e ≤ p.1)) ∧
        z' = zadd z (now + d) e ∧
        zscore z' e = some (now + d) ∧
        (∀ m, m ≠ e → zscore z' m = zscore z m)) ∧
    ((∃ err, choose d now z = Except.error err) ↔ ∀ p ∈ z, ¬ p.2 ≤ now) ∧
    ((zset_element_choose_and_alter_script z now (now + d)).1 = none →
      (zset_element_choose_and_alter_script z now (now + d)).2 = z) := by
  refine ⟨?_, ?_, ?_⟩
  · intro e z' hok
    rcases choose_eq_ok_iff.mp hok with ⟨hmin, hz'⟩
    rcases zrangebyscoreMin_eq_some hmin with ⟨s, hmem, hle, hminimal⟩
    subst hz'
    exact ⟨s, hmem, hle, hminimal, rfl, zscore_zadd_self z (now + d) e,
      fun m hm => zscore_zadd_ne z (now + d) hm⟩
  · rw [choose_eq_error_iff, zrangebyscoreMin_eq_none_iff]
  · intro hnone
    rcases hmin : zrangebyscoreMin z now with _ | e₀
    · simp [zset_element_choose_and_alter_script, hmin]
    · simp [zset_element_choose_and_alter_script, hmin] at hnone

/-- Witness for C1: on the pool {b ↦ 5, a ↦ 3} at time 10 with
lock_timeout 7, `choose` picks `a` (score 3 is minimal) and rewrites its
score to 17. -/
theorem choose_selects_min_available_witness :
    ∃ s, ("a", s) ∈ ([("b", 5), ("a", 3)] : ZSet) ∧ s ≤ 10 ∧
      (∀ p ∈ ([("b", 5), ("a", 3)] : ZSet), p.2 ≤ 10 → s < p.2 ∨ (s = p.2 ∧ "a" ≤ p.1)) ∧
      ([("b", 5), ("a", 17)] : ZSet) = zadd [("b", 5), ("a", 3)] (10 + 7) "a" ∧
      zscore [("b", 5), ("a", 17)] "a" = some (10 + 7) ∧
      (∀ m, m ≠ "a" → zscore [("b", 5), ("a", 17)] m = zscore [("b", 5), ("a", 3)] m) :=
  (choose_selects_min_available 7 10 [("b", 5), ("a", 3)]).1 "a" [("b", 5), ("a", 17)]
    (by decide)

/-- C2 (code bug): `add` on an item already present with score 5 rewrites
the score to 0.  In redis Lua, `ZSCORE` on a missing member yields `false`,
never `nil`, so the script's `current_score == nil` guard never fires and
the `zadd` branch always runs; the claim — and `add`'s own docstring,
"without messing with it's current score in the pool" — requires the
existing score to stay 5. -/
theorem add_overwrites_existing_score :
    add [("a", 5)] "a" = (false, [("a", 0)]) ∧ zscore [("a", 5)] "a" = some 5 := by
  decide

/-- C3 (code bug): `reset` on an empty items sequence never creates the
temporary key (`add_batch` returns early on an empty batch, so no ZADD is
issued), hence the final RENAME fails with redis error "no such key" instead
of installing an empty pool; the old pool is left in place. -/
theorem reset_empty_items_raises (z : ZSet) :
    reset z [] false = Except.error "no such key" := by
  simp [reset, buildTemp]

/-- C6 (code bug): `reset` counts every input item, duplicates included:
resetting with `["a", "a"]` returns 2 while the new pool holds the single
member `"a"`, contradicting the claim and `reset`'s docstring ("Returns the
number of items in the new pool"). -/
theorem reset_return_counts_duplicates :
    reset ([] : ZSet) ["a", "a"] false = Except.ok (2, [("a", 0)]) ∧
    (members [("a", 0)]).length = 1 := by
  decide

/-- C7 is false as stated: `replace` of an item that is not a pool member
inserts it into the pool — on the empty pool, `replace("x")` makes `x` a
member. -/
theorem replace_adds_member_counterexample :
    members (replace 10 ([] : ZSet) "x" none) = ["x"] := by
  decide

/-- C7 (amended): `choose` never changes the pool membership; `replace`
never removes a member and never adds any member other than its own item,
which it inserts exactly when it was absent — on an item already a member,
both operations only alter that item's `available_at`. -/
theorem choose_replace_membership_frame (d now : ℤ) (z : ZSet) (item : Item) :
    (∀ e z', choose d now z = Except.ok (e, z') → members z' = members z) ∧
    (∀ lock_till : Option ℤ, item ∈ members z →
      members (replace now z item lock_till) = members z) ∧
    (∀ lock_till : Option ℤ, item ∉ members z →
      members (replace now z item lock_till) = members z ++ [item]) := by
  refine ⟨?_, ?_, ?_⟩
  · intro e z' hok
    rcases choose_eq_ok_iff.mp hok with ⟨hmin, hz'⟩
    rcases zrangebyscoreMin_eq_some hmin with ⟨s, hmem, -, -⟩
    subst hz'
    exact members_zadd_of_mem (List.mem_map_of_mem Prod.fst hmem) _
  · intro lock_till hmem
    cases lock_till <;> exact members_zadd_of_mem hmem _
  · intro lock_till hmem
    cases lock_till <;> exact members_zadd_of_not_mem hmem _

/-- Witness for C7 (amended): a successful `choose` on {a ↦ 0} leaves the
membership unchanged. -/
theorem choose_replace_membership_frame_witness :
    members ([("a", 15)] : ZSet) = members ([("a", 0)] : ZSet) :=
  (choose_replace_membership_frame 5 10 [("a", 0)] "x").1 "a" [("a", 15)] (by decide)

/-- C8 is false as stated: on the pool {x ↦ 50} at time 10, `replace("x")`
with no `lock_till` writes score 9 = now − 1 (`_just_before_now`), not
now = 10. -/
theorem replace_default_score_counterexample :
    zscore (replace 10 ([("x", 50)] : ZSet) "x" none) "x" = some 9 ∧ (9 : ℤ) ≠ 10 := by
  decide

/-- C8 (amended): `replace(item)` with no `lock_till` sets the item's
`available_at` to `now - 1` (`_just_before_now`, one second before now),
which still makes it immediately available since `now - 1 ≤ now`;
`replace(item, lock_till)` sets its `available_at` to `lock_till`; in both
cases the item is inserted when absent, so after `remove(X)` followed by
`replace(X)`, `X` is again a pool member with `available_at ≤ now`. -/
theorem replace_upserts_spec (now t : ℤ) (z : ZSet) (item : Item) :
    zscore (replace now z item none) item = some (now - 1) ∧
    now - 1 ≤ now ∧
    zscore (replace now z item (some t)) item = some t ∧
    (∀ lock_till : Option ℤ, item ∈ members (replace now z item lock_till)) ∧
    (∃ s, zscore (replace now ((remove z item).2) item none) item = some s ∧ s ≤ now ∧
      item ∈ members (replace now ((remove z item).2) item none)) := by
  have hself : ∀ (w : ZSet) (s : ℤ), item ∈ members (zadd w s item) := fun w s =>
    zscore_isSome_iff.mp (by rw [zscore_zadd_self]; rfl)
  refine ⟨zscore_zadd_self .., by omega, zscore_zadd_self .., ?_, ?_⟩
  · intro lock_till
    cases lock_till <;> exact hself _ _
  · exact ⟨now - 1, zscore_zadd_self .., by omega, hself _ _⟩

/-- C9: `add(item)` inserts the item with `available_at = 0` exactly when it
is not already a member (when new, the pool gains exactly the one member at
score 0), and returns `True` exactly when that insertion occurred and
`False` when the item was already present. -/
theorem add_inserts_iff_new (z : ZSet) (item : Item) :
    ((add z item).1 = true ↔ item ∉ members z) ∧
    item ∈ members (add z item).2 ∧
    (item ∉ members z →
      (add z item).2 = zadd z 0 item ∧ zscore (add z item).2 item = some 0 ∧
      members (add z item).2 = members z ++ [item]) ∧
    (item ∈ members z → members (add z item).2 = members z) := by
  have hself : item ∈ members (zadd z 0 item) :=
    zscore_isSome_iff.mp (by rw [zscore_zadd_self]; rfl)
  by_cases hm : item ∈ members z
  · have hs : (zscore z item).isSome = true := zscore_isSome_iff.mpr hm
    refine ⟨?_, hself, fun hn => absurd hm hn, fun _ => members_zadd_of_mem hm 0⟩
    simp [add, zadd_if_new_script, serialize, hs, hm]
  · have hs : zscore z item = none := zscore_eq_none_iff.mpr hm
    refine ⟨?_, hself,
      fun _ => ⟨rfl, zscore_zadd_self .., members_zadd_of_not_mem hm 0⟩,
      fun hmem => absurd hmem hm⟩
    simp [add, zadd_if_new_script, serialize, hs, hm]

/-- Witness for C9: adding `"a"` to the empty pool inserts it at score 0. -/
theorem add_inserts_iff_new_witness :
    (add ([] : ZSet) "a").2 = zadd [] 0 "a" ∧
    zscore (add ([] : ZSet) "a").2 "a" = some 0 ∧
    members (add ([] : ZSet) "a").2 = members ([] : ZSet) ++ ["a"] :=
  (add_inserts_iff_new [] "a").2.2.1 (by decide)

/-- C10: the canonicalization at the store boundary is the identity — the
bodies of `serialize` and `deserialize` return their argument unchanged, so
the round trip is the identity.  (This is the intended behavior; the
Python-level defect recorded for this claim is that both methods are
declared without a `self` parameter, so every bound call
`self.serialize(item)` / `self.deserialize(element)` in the public
operations raises `TypeError` before the store is reached.) -/
theorem serialize_deserialize_identity (item : Item) :
    serialize item = item ∧ deserialize (serialize item) = item :=
  ⟨rfl, rfl⟩

/-- C4: `reset(items, preserve_scores=True)` over an existing (non-empty)
pool succeeds, returns the input length, and produces a pool whose
membership is exactly the set of input items, where every item that was
already a pool member keeps its old `available_at` (the SUM-aggregated
intersection contributes old + 0 and the SUM-aggregated union re-adds the
temporary 0) and every new item gets `available_at = 0` — in particular an
item leased until time T that survives the rotation is still leased until
T. -/
theorem reset_preserve_scores_carries_over (z : ZSet) (items : List Item)
    (hz : z ≠ []) (hi : items ≠ []) :
    ∃ z', reset z items true = Except.ok (items.length, z') ∧
      (∀ item ∈ items, zscore z' item = some ((zscore z item).getD 0)) ∧
      (∀ m : Item, m ∈ members z' ↔ m ∈ items) := by
  have hndT := nodup_members_buildTemp items
  have hscore : ∀ item ∈ items,
      zscore (zunionstore (zinterstore (buildTemp items) z) (buildTemp items)) item =
        some ((zscore z item).getD 0) := by
    intro item hitem
    have hT : zscore (buildTemp items) item = some 0 := by
      rw [zscore_buildTemp]; simp [hitem]
    rw [zscore_zunionstore, zscore_zinterstore _ _ _ hndT, hT]
    rcases hzs : zscore z item with _ | s <;> simp
  have hmem : ∀ m : Item,
      m ∈ members (zunionstore (zinterstore (buildTemp items) z) (buildTemp items)) ↔
        m ∈ items := by
    intro m
    rw [← zscore_isSome_iff, zscore_zunionstore, zscore_zinterstore _ _ _ hndT,
      zscore_buildTemp]
    by_cases hm : m ∈ items
    · rcases zscore z m with _ | s <;> simp [hm]
    · simp [hm]
  have hne : zunionstore (zinterstore (buildTemp items) z) (buildTemp items) ≠ [] := by
    intro hnil
    obtain ⟨i, hmemi⟩ := List.exists_mem_of_ne_nil items hi
    have hsc := hscore i hmemi
    rw [hnil] at hsc
    simp [zscore] at hsc
  refine ⟨zunionstore (zinterstore (buildTemp items) z) (buildTemp items), ?_, hscore, hmem⟩
  simp [reset, hz, hne]

/-- C5: with `lock_timeout > 0` and a pool of N members (no duplicates) all
with `available_at ≤ now`, N `choose` calls at time `now` — the Lua script
runs atomically inside redis, so any interleaving of N concurrent calls is
serialized into exactly such a sequence — return N pairwise-distinct items,
and a subsequent `choose` raises `NoItemAvailableError`. -/
theorem concurrent_choose_returns_distinct_items (d now : ℤ) (z : ZSet)
    (hd : 0 < d) (hnd : (members z).Nodup) (hall : ∀ p ∈ z, p.2 ≤ now) :
    (chooseSeq d now z z.length).1.Nodup ∧
    (chooseSeq d now z z.length).1.length = z.length ∧
    ∃ err, choose d now (chooseSeq d now z z.length).2 = Except.error err := by
  have helig : eligList now z = z := by
    rw [eligList, List.filter_eq_self]
    intro p hp
    exact decide_eq_true (hall p hp)
  have hlen : (eligList now z).length = z.length := by rw [helig]
  have hres := chooseSeq_mutual_exclusion d now hd z.length z hnd hlen
  refine ⟨hres.1, hres.2.1, ?_⟩
  refine choose_eq_error_iff.mpr ?_
  rw [zrangebyscoreMin_eq_none_iff]
  intro p hp
  exact eligList_eq_nil_iff.mp hres.2.2.2 p hp

/-- Witness for C5: the two-member pool {a ↦ 0, b ↦ 0} at time 0 with
lock_timeout 1: two calls return the distinct items a then b, and a third
call errors. -/
theorem concurrent_choose_returns_distinct_items_witness :
    (chooseSeq 1 0 [("a", 0), ("b", 0)] ([("a", 0), ("b", 0)] : ZSet).length).1.Nodup ∧
    (chooseSeq 1 0 [("a", 0), ("b", 0)] ([("a", 0), ("b", 0)] : ZSet).length).1.length =
      ([("a", 0), ("b", 0)] : ZSet).length ∧
    ∃ err, choose 1 0 (chooseSeq 1 0 [("a", 0), ("b", 0)]
      ([("a", 0), ("b", 0)] : ZSet).length).2 = Except.error err :=
  concurrent_choose_returns_distinct_items 1 0 [("a", 0), ("b", 0)]
    (by decide) (by decide) (by decide)

/-- Witness for C4: the pool {A ↦ 100 (leased until 100), B ↦ 0} rotated to
[A, B, C] with preserve_scores keeps A's score 100 and gives B and C
score 0. -/
theorem reset_preserve_scores_carries_over_witness :
    ∃ z', reset [("A", 100), ("B", 0)] ["A", "B", "C"] true = Except.ok (3, z') ∧
      (∀ item ∈ (["A", "B", "C"] : List Item),
        zscore z' item = some ((zscore [("A", 100), ("B", 0)] item).getD 0)) ∧
      (∀ m : Item, m ∈ members z' ↔ m ∈ (["A", "B", "C"] : List Item)) :=
  reset_preserve_scores_carries_over [("A", 100), ("B", 0)] ["A", "B", "C"]
    (by decide) (by decide)

end Pooler
